import Mathlib

/-!
Verification of the synchronization/reconciliation engine of the
task-master repository: shallow embedding of the snapshot flattener,
the diff engine, the sync-mapping helpers, the retry executor, the
transactional composite operation, the relation-capability detection
and the rich-text splitter, together with theorems settling the
specification's testable properties.

The embedding follows `src/scripts/modules/notion.js` (the later of the
two bundled variants, which filters out subtasks with a missing id),
`src/scripts/modules/notion-operations.js` and
`src/scripts/modules/notion-reset-command.js`.
-/

namespace TaskMaster

/-- A JavaScript dependency entry: either a number or a string
(the source stores both shapes in `dependencies` arrays). -/
inductive JDep where
  | num (n : Int)
  | str (s : String)
deriving DecidableEq, Repr

/-- A flattened-entity key: top-level tasks keep their numeric id, subtasks
get a compound string id, and JS `===` never identifies a number with a
string, so the two kinds are kept apart. -/
inductive FlatId where
  | num (n : Int)
  | str (s : String)
deriving DecidableEq, Repr

/-- A subtask as read from the local store.  `none` models a missing or
`null`/`undefined` field. -/
structure Subtask where
  id : Option Int
  title : Option String := none
  description : Option String := none
  details : Option String := none
  testStrategy : Option String := none
  priority : Option String := none
  status : Option String := none
  dependencies : Option (List JDep) := none
deriving DecidableEq, Repr

/-- A top-level task as read from the local store. -/
structure Task where
  id : Int
  title : Option String := none
  description : Option String := none
  details : Option String := none
  testStrategy : Option String := none
  priority : Option String := none
  status : Option String := none
  dependencies : Option (List JDep) := none
  subtasks : Option (List Subtask) := none
deriving DecidableEq, Repr

/-- A flattened task record as produced by `flattenTasksWithTag` /
`flattenTasksMap`: the `subtasks` field has been replaced by the list of
compound child id strings, and subtask records carry `_parentId` and the
rewritten dependencies. -/
structure FlatTask where
  id : FlatId
  title : Option String := none
  description : Option String := none
  details : Option String := none
  testStrategy : Option String := none
  priority : Option String := none
  status : Option String := none
  dependencies : Option (List JDep) := none
  subtasks : List String := []
  parentId : Option Int := none
  isSubtask : Bool := false
deriving DecidableEq, Repr

/-- One element of the array returned by `flattenTasksWithTag`. -/
structure FlatEntity where
  id : FlatId
  task : FlatTask
  tag : String
deriving DecidableEq, Repr

/-- The subtasks of a task that carry a usable id: the source filters
`st.id !== undefined && st.id !== null` before flattening. -/
def validSubtasks (t : Task) : List Subtask :=
  (t.subtasks.getD []).filter (fun st => st.id.isSome)

/-- The sibling id list `subtaskIds = validSubtasks.map(st => st.id)`. -/
def sibIds (t : Task) : List Int :=
  (validSubtasks t).map (fun st => st.id.getD 0)

/-- The compound subtask id `` `${t.id}.${st.id}` ``. -/
def compoundIdStr (pid sid : Int) : String :=
  toString pid ++ "." ++ toString sid

/-- The dependency-rewriting lambda of the flattener: string deps that
already contain a dot are kept; a numeric dep (or an all-digit string dep)
whose numeric value is a sibling subtask id becomes `` `${t.id}.${dep}` ``;
anything else is kept unchanged. -/
def rewriteDep (pid : Int) (sibs : List Int) (d : JDep) : JDep :=
  match d with
  | .str s =>
    if s.contains '.' then .str s
    else
      match s.toNat? with
      | some n => if (Int.ofNat n) ∈ sibs then .str (toString pid ++ "." ++ s) else .str s
      | none => .str s
  | .num n => if n ∈ sibs then .str (toString pid ++ "." ++ toString n) else .num n

/-- The flattened record pushed for one valid subtask. -/
def flatSubtask (pid : Int) (ppriority : Option String) (sibs : List Int)
    (st : Subtask) : FlatTask :=
  { id := .str (compoundIdStr pid (st.id.getD 0))
    title := st.title
    description := st.description
    details := st.details
    testStrategy := st.testStrategy
    priority := if st.priority.isSome then st.priority else ppriority
    status := st.status
    dependencies := st.dependencies.map (List.map (rewriteDep pid sibs))
    subtasks := []
    parentId := some pid
    isSubtask := true }

/-- The flattened record pushed for the parent task itself: its `subtasks`
array is replaced by the ordered compound child id strings. -/
def flatParent (t : Task) : FlatTask :=
  { id := .num t.id
    title := t.title
    description := t.description
    details := t.details
    testStrategy := t.testStrategy
    priority := t.priority
    status := t.status
    dependencies := t.dependencies
    subtasks := (validSubtasks t).map (fun st => compoundIdStr t.id (st.id.getD 0))
    parentId := none
    isSubtask := false }

/-- `flattenTasksWithTag(tasks, tag)`: per task, the valid subtask records in
order, then the parent record. -/
def flattenTasksWithTag (tasks : List Task) (tag : String) : List FlatEntity :=
  tasks.flatMap (fun t =>
    ((validSubtasks t).map (fun st =>
      { id := .str (compoundIdStr t.id (st.id.getD 0))
        task := flatSubtask t.id t.priority (sibIds t) st
        tag := tag }))
    ++ [{ id := .num t.id, task := flatParent t, tag := tag }])

/-- `Map.set` on an insertion-ordered association list with unique keys:
an existing key keeps its position and gets the new value, a new key is
appended. -/
def mapSet : List (FlatId × FlatTask) → FlatId → FlatTask → List (FlatId × FlatTask)
  | [], k, v => [(k, v)]
  | (k', v') :: rest, k, v =>
    if k' = k then (k, v) :: rest else (k', v') :: mapSet rest k v

/-- `Map.get`. -/
def mapGet : List (FlatId × FlatTask) → FlatId → Option FlatTask
  | [], _ => none
  | (k', v') :: rest, k => if k' = k then some v' else mapGet rest k

/-- Insert one task (its valid subtasks first, then the task itself) into
the flattened map, as one iteration of `flattenTasksMap`'s loop. -/
def flattenTaskInto (m : List (FlatId × FlatTask)) (t : Task) :
    List (FlatId × FlatTask) :=
  let m' := (validSubtasks t).foldl
    (fun m st =>
      mapSet m (.str (compoundIdStr t.id (st.id.getD 0)))
        (flatSubtask t.id t.priority (sibIds t) st)) m
  mapSet m' (.num t.id) (flatParent t)

/-- `flattenTasksMap(tasks)`: the insertion-ordered id → record map. -/
def flattenTasksMap (tasks : List Task) : List (FlatId × FlatTask) :=
  tasks.foldl flattenTaskInto []

/-- `isTaskEqual(a, b)`: compares the primitive fields and the
`dependencies` and `subtasks` arrays (order-sensitive; a missing
`dependencies` array counts as empty). -/
def isTaskEqual (a b : FlatTask) : Bool :=
  decide (a.title = b.title) && decide (a.description = b.description) &&
  decide (a.details = b.details) && decide (a.testStrategy = b.testStrategy) &&
  decide (a.priority = b.priority) && decide (a.status = b.status) &&
  decide (a.dependencies.getD [] = b.dependencies.getD []) &&
  decide (a.subtasks = b.subtasks)

/-- A change record produced by `diffTasks`. -/
inductive Change where
  | added (id : FlatId) (tag : String) (cur : FlatTask)
  | deleted (id : FlatId) (tag : String) (prev : FlatTask)
  | updated (id : FlatId) (tag : String) (prev cur : FlatTask)
  | moved (id cur_id : FlatId) (prev_tag tag : String) (prev cur : FlatTask)
deriving DecidableEq, Repr

/-- Is an `added` record? -/
def Change.isAdded : Change → Bool
  | .added _ _ _ => true
  | _ => false

/-- Is a `deleted` record? -/
def Change.isDeleted : Change → Bool
  | .deleted _ _ _ => true
  | _ => false

/-- A snapshot object: insertion-ordered tag entries; `none` models a tag
whose value has no `tasks` array (it is filtered out of the tag lists). -/
abbrev Snapshot := List (String × Option (List Task))

/-- First-occurrence deduplication, as `Array.from(new Set(...))`. -/
def dedupFirst (l : List String) : List String :=
  l.foldl (fun acc x => if x ∈ acc then acc else acc ++ [x]) []

/-- `Object.keys(obj).filter(tag => obj[tag] && Array.isArray(obj[tag].tasks))`. -/
def validTags (s : Snapshot) : List String :=
  (dedupFirst (s.map Prod.fst)).filter (fun t =>
    match s.lookup t with
    | some (some _) => true
    | _ => false)

/-- `obj[tag]?.tasks || []`. -/
def tagTasks (s : Snapshot) (t : String) : List Task :=
  match s.lookup t with
  | some (some ts) => ts
  | _ => []

/-- The per-tag body of `diffTasks`' compare branch: the deleted/updated
loop over the previous map followed by the added loop over the current
map. -/
def compareTag (prevMap curMap : List (FlatId × FlatTask)) (tag : String) :
    List Change :=
  (prevMap.filterMap (fun p =>
    match mapGet curMap p.1 with
    | none => some (.deleted p.1 tag p.2)
    | some ct =>
      if isTaskEqual p.2 ct then none else some (.updated p.1 tag p.2 ct)))
  ++ (curMap.filterMap (fun p =>
    if (mapGet prevMap p.1).isSome then none
    else some (.added p.1 tag p.2)))

/-- One iteration of `diffTasks`' tag loop. -/
def diffTag (previous current : Snapshot) (prevTags curTags : List String)
    (tag : String) : List Change :=
  if tag ∈ prevTags ∧ tag ∉ curTags then
    (flattenTasksWithTag (tagTasks previous tag) tag).map
      (fun e => .deleted e.id tag e.task)
  else if tag ∉ prevTags ∧ tag ∈ curTags then
    (flattenTasksWithTag (tagTasks current tag) tag).map
      (fun e => .added e.id tag e.task)
  else
    compareTag (flattenTasksMap (tagTasks previous tag))
      (flattenTasksMap (tagTasks current tag)) tag

/-- `del.prev?.[f] || ''`: a missing field collapses to the empty string. -/
def orEmpty (o : Option String) : String := o.getD ""

/-- The moved-detection criterion: title, description, details,
testStrategy and status all equal (after `|| ''` normalization). -/
def isMovedMatch (prev cur : FlatTask) : Bool :=
  decide (orEmpty prev.title = orEmpty cur.title) &&
  decide (orEmpty prev.description = orEmpty cur.description) &&
  decide (orEmpty prev.details = orEmpty cur.details) &&
  decide (orEmpty prev.testStrategy = orEmpty cur.testStrategy) &&
  decide (orEmpty prev.status = orEmpty cur.status)

/-- Does the deleted record `d` match the added record `a` for moved
detection? -/
def matchDA : Change → Change → Bool
  | .deleted _ _ p, .added _ _ c => isMovedMatch p c
  | _, _ => false

/-- Build the `moved` record from a deleted/added pair. -/
def mkMoved : Change → Change → Change
  | .deleted did dtag p, .added aid atag c => .moved did aid dtag atag p c
  | c, _ => c

/-- The moved-detection pass: each deleted record is paired with the first
content-equal added record; the source never skips an already matched
added record, so the same added record can pair with several deletions.
Matched records are dropped from the final added/deleted lists. -/
def movedPhase (changes : List Change) : List Change :=
  let added := changes.filter Change.isAdded
  let deleted := changes.filter Change.isDeleted
  let moved := deleted.filterMap (fun d => (added.find? (matchDA d)).map (mkMoved d))
  let matchedAddIdx := deleted.filterMap (fun d =>
    (added.enum.find? (fun p => matchDA d p.2)).map Prod.fst)
  let keptAdded := (added.enum.filter (fun p => p.1 ∉ matchedAddIdx)).map Prod.snd
  let keptDeleted := deleted.filter (fun d => (added.find? (matchDA d)).isNone)
  (changes.filter (fun c => !c.isAdded && !c.isDeleted))
    ++ keptAdded ++ keptDeleted ++ moved

/-- `diffTasks(previous, current)`: the tag loop followed by moved
detection. -/
def diffTasks (previous current : Snapshot) : List Change :=
  let prevTags := validTags previous
  let curTags := validTags current
  let allTags := dedupFirst (prevTags ++ curTags)
  movedPhase (allTags.flatMap (diffTag previous current prevTags curTags))

/-- The shape of a JavaScript error as probed by `executeWithRetry`:
`e.status`, `e.code` and `e.body && e.body.code`. -/
structure JsError where
  status : Option Int := none
  code : Option String := none
  bodyCode : Option String := none
deriving DecidableEq, Repr

/-- `e.status === 429 || e.code === 'rate_limited' || (e.body && e.body.code === 'rate_limited')`. -/
def isRateLimit (e : JsError) : Bool :=
  decide (e.status = some 429) || decide (e.code = some "rate_limited") ||
  decide (e.bodyCode = some "rate_limited")

/-- `e.status === 409`. -/
def isConflict (e : JsError) : Bool := decide (e.status = some 409)

/-- The transient network codes. -/
def isNetwork (e : JsError) : Bool :=
  decide (e.code = some "ENOTFOUND") || decide (e.code = some "ECONNRESET") ||
  decide (e.code = some "ETIMEDOUT")

/-- The retry loop of `executeWithRetry` with the operation modelled as the
outcome of each numbered invocation; returns the final outcome together
with the total number of invocations performed. -/
def retryGo {α : Type} (fn : Nat → Except JsError α) (retries attempt : Nat) :
    Except JsError α × Nat :=
  match fn attempt with
  | .ok v => (.ok v, attempt + 1)
  | .error e =>
    if h : (isRateLimit e || isConflict e || isNetwork e) ∧ attempt < retries then
      retryGo fn retries (attempt + 1)
    else (.error e, attempt + 1)
termination_by retries + 1 - attempt
decreasing_by omega

/-- `executeWithRetry(fn, { retries })`: starts at attempt 0. -/
def executeWithRetry {α : Type} (fn : Nat → Except JsError α) (retries : Nat) :
    Except JsError α × Nat :=
  retryGo fn retries 0

/-- A transactional operation over an abstract mutable world `σ`:
`execute` may fail, `rollback` receives `execute`'s result and may itself
fail (the composite catches and logs rollback failures). -/
structure JsOp (σ ρ : Type) where
  execute : σ → σ × Except JsError ρ
  rollback : ρ → σ → σ × Except JsError Unit

/-- `rollbackExecuted()`: rolls the executed `(operation, result)` pairs
back from the last executed to the first, swallowing rollback errors. -/
def rollbackExecuted {σ ρ : Type} (executed : List (JsOp σ ρ × ρ)) (s : σ) : σ :=
  (executed.reverse).foldl (fun s p => (p.1.rollback p.2 s).1) s

/-- The loop of `CompositeOperation.execute`: runs the operations in order,
accumulating executed pairs; on the first failure rolls back every
previously executed operation in reverse order and re-raises the error. -/
def compositeGo {σ ρ : Type} (ops : List (JsOp σ ρ))
    (executed : List (JsOp σ ρ × ρ)) (s : σ) : σ × Except JsError (List ρ) :=
  match ops with
  | [] => (s, .ok (executed.reverse.map Prod.snd))
  | op :: rest =>
    match op.execute s with
    | (s', .ok r) => compositeGo rest ((op, r) :: executed) s'
    | (s', .error e) => (rollbackExecuted executed.reverse s', .error e)

/-- `CompositeOperation.execute()` starting from an empty executed list. -/
def compositeExecute {σ ρ : Type} (ops : List (JsOp σ ρ)) (s : σ) :
    σ × Except JsError (List ρ) :=
  compositeGo ops [] s

/-! ### Sync-mapping helpers

`setNotionPageId` / `removeNotionPageId` build a new top-level object with
`{ ...mapping }` — a shallow copy — and then mutate `newMapping[tag]`,
which is the very inner object the original mapping also references.  To
make that aliasing observable the embedding gives inner tables explicit
heap addresses: a mapping object holds tag → address, the heap holds the
inner id → remote-id tables. -/

/-- An inner per-tag table (JS object keys are strings). -/
abbrev InnerTbl := List (String × String)

/-- The heap of inner tables, addressed by index. -/
structure Heap where
  tbls : List InnerTbl
deriving DecidableEq, Repr

/-- A top-level mapping object: insertion-ordered tag → inner-table
address. -/
structure MapObj where
  entries : List (String × Nat)
deriving DecidableEq, Repr

/-- JS object property access on an insertion-ordered association list. -/
def objGet {β : Type} : List (String × β) → String → Option β
  | [], _ => none
  | (k', v') :: rest, k => if k' = k then some v' else objGet rest k

/-- Dereference an inner-table address. -/
def readInner (h : Heap) (a : Nat) : InnerTbl := (h.tbls[a]?).getD []

/-- `mapping?.[tag]?.[id]` — what `getNotionPageId` observes. -/
def getNotionPageId (h : Heap) (m : MapObj) (tag id : String) : Option String :=
  match objGet m.entries tag with
  | none => none
  | some a => objGet (readInner h a) id

/-- Assign `tbl[k] = v` on an insertion-ordered object: an existing key
keeps its position and gets the new value, a new key is appended. -/
def tblSet : InnerTbl → String → String → InnerTbl
  | [], k, v => [(k, v)]
  | (k', v') :: rest, k, v =>
    if k' = k then (k, v) :: rest else (k', v') :: tblSet rest k v

/-- `delete tbl[k]`. -/
def tblDel (t : InnerTbl) (k : String) : InnerTbl :=
  t.filter (fun p => p.1 ≠ k)

/-- Overwrite the table at address `a`. -/
def heapSetTbl (h : Heap) (a : Nat) (t : InnerTbl) : Heap := ⟨h.tbls.set a t⟩

/-- `setNotionPageId(mapping, tag, id, notionId)`: shallow-copies the
top-level object; when the tag already exists the shared inner table is
mutated in place, otherwise a fresh empty inner object is allocated and
keyed under the tag in the copy. -/
def setNotionPageId (h : Heap) (m : MapObj) (tag id notionId : String) :
    Heap × MapObj :=
  match objGet m.entries tag with
  | some a => (heapSetTbl h a (tblSet (readInner h a) id notionId), ⟨m.entries⟩)
  | none =>
    let a := h.tbls.length
    (⟨h.tbls ++ [tblSet [] id notionId]⟩, ⟨m.entries ++ [(tag, a)]⟩)

/-- `removeNotionPageId(mapping, tag, id)`: shallow-copies the top-level
object, deletes `id` from the shared inner table, and removes the tag
entry from the copy when the inner table became empty. -/
def removeNotionPageId (h : Heap) (m : MapObj) (tag id : String) :
    Heap × MapObj :=
  match objGet m.entries tag with
  | none => (h, ⟨m.entries⟩)
  | some a =>
    let t' := tblDel (readInner h a) id
    let h' := heapSetTbl h a t'
    if t'.isEmpty then (h', ⟨m.entries.filter (fun p => p.1 ≠ tag)⟩)
    else (h', ⟨m.entries⟩)

/-- Every inner-table address of a mapping object points into the heap. -/
def wfMap (h : Heap) (m : MapObj) : Bool :=
  m.entries.all (fun p => p.2 < h.tbls.length)

/-! ### Relation-capability detection (`checkRelationProperties`) -/

/-- One remote database property, with its schema name and type. -/
structure NotionProp where
  name : String
  type : String
deriving DecidableEq, Repr

/-- The capability record returned by `checkRelationProperties`. -/
structure RelStatus where
  hasParentRelation : Bool := false
  hasSubItemRelation : Bool := false
  hasDependencyRelation : Bool := false
  parentRelationName : Option String := none
  subItemRelationName : Option String := none
  dependencyRelationName : Option String := none
deriving DecidableEq, Repr

/-- JS `String.prototype.includes`: contiguous substring containment. -/
def strIncludes (s pat : String) : Bool := decide (pat.data <:+: s.data)

/-- `toLowerCase` on one character (ASCII range, which covers the names
the detection looks for). -/
def charToLower (c : Char) : Char :=
  if 'A' ≤ c ∧ c ≤ 'Z' then Char.ofNat (c.toNat + 32) else c

/-- `name.toLowerCase()`. -/
def strToLower (s : String) : String := ⟨s.data.map charToLower⟩

/-- One iteration of the `Object.entries` loop: relation-typed properties
are classified by an `else if` chain on the lowercased name. -/
def relStep (status : RelStatus) (p : NotionProp) : RelStatus :=
  if p.type = "relation" then
    let nameLower := strToLower p.name
    if strIncludes nameLower "parent" then
      { status with hasParentRelation := true, parentRelationName := some p.name }
    else if strIncludes nameLower "sub" then
      { status with hasSubItemRelation := true, subItemRelationName := some p.name }
    else if strIncludes nameLower "dependenc" then
      { status with hasDependencyRelation := true, dependencyRelationName := some p.name }
    else status
  else status

/-- `checkRelationProperties(database)` over the ordered property list. -/
def checkRelationProperties (properties : List NotionProp) : RelStatus :=
  properties.foldl relStep {}

/-! ### Rich-text splitting (`splitRichTextByWord`) -/

/-- The `{ text: { content } }` fragment pushed per chunk. -/
structure TextObj where
  content : List Char
deriving DecidableEq, Repr

/-- A rich-text chunk. -/
structure RichChunk where
  text : TextObj
deriving DecidableEq, Repr

/-- `content.lastIndexOf(' ', from)`: the greatest index `≤ from` holding a
space, `none` for `-1`. -/
def lastIndexOfSpace (s : List Char) (fro : Nat) : Option Nat :=
  (List.range (fro + 1)).reverse.find? (fun i => s.get? i = some ' ')

/-- `lastIndexOfSpace` only returns indices `≤ fro`. -/
theorem lastIndexOfSpace_le {s : List Char} {fro i : Nat}
    (h : lastIndexOfSpace s fro = some i) : i ≤ fro := by
  have hmem : i ∈ (List.range (fro + 1)).reverse := List.mem_of_find?_eq_some h
  rw [List.mem_reverse, List.mem_range] at hmem
  omega

/-- The tentative chunk end `end = Math.min(start + chunkSize, content.length)`. -/
def chunkEnd0 (s : List Char) (c start : Nat) : Nat := min (start + c) s.length

/-- The adjusted chunk end: when the tentative end is strictly inside the
content, the last space at or before it is preferred whenever it lies
beyond `start + chunkSize * 0.7` (embedded exactly over the rationals as
`ls * 10 > start * 10 + c * 7`). -/
def chunkEnd (s : List Char) (c start : Nat) : Nat :=
  if chunkEnd0 s c start < s.length then
    match lastIndexOfSpace s (chunkEnd0 s c start) with
    | some ls =>
      if ls * 10 > start * 10 + c * 7 then ls else chunkEnd0 s c start
    | none => chunkEnd0 s c start
  else chunkEnd0 s c start

/-- `start = end; if (content[start] === ' ') start++`. -/
def nextStart (s : List Char) (c start : Nat) : Nat :=
  if s.get? (chunkEnd s c start) = some ' ' then chunkEnd s c start + 1
  else chunkEnd s c start

/-- The adjusted chunk end stays strictly past `start` (a last space is
only taken when it lies beyond `start + 0.7 * chunkSize`). -/
theorem lt_chunkEnd {s : List Char} {c start : Nat} (hc : 0 < c)
    (hlt : start < s.length) : start < chunkEnd s c start := by
  have h0 : start < chunkEnd0 s c start := by
    simp only [chunkEnd0]
    omega
  unfold chunkEnd
  by_cases hlen : chunkEnd0 s c start < s.length
  · rw [if_pos hlen]
    cases hfind : lastIndexOfSpace s (chunkEnd0 s c start) with
    | none => exact h0
    | some ls =>
      by_cases hgt : ls * 10 > start * 10 + c * 7
      · simp only [if_pos hgt]
        omega
      · simp only [if_neg hgt]
        exact h0
  · rw [if_neg hlen]
    exact h0

/-- The adjusted chunk end never exceeds the tentative one. -/
theorem chunkEnd_le_chunkEnd0 (s : List Char) (c start : Nat) :
    chunkEnd s c start ≤ chunkEnd0 s c start := by
  unfold chunkEnd
  by_cases hlen : chunkEnd0 s c start < s.length
  · rw [if_pos hlen]
    cases hfind : lastIndexOfSpace s (chunkEnd0 s c start) with
    | none => exact Nat.le_refl _
    | some ls =>
      by_cases hgt : ls * 10 > start * 10 + c * 7
      · simp only [if_pos hgt]
        exact lastIndexOfSpace_le hfind
      · simp only [if_neg hgt]
        exact Nat.le_refl _
  · rw [if_neg hlen]

/-- The `while (start < content.length)` loop of `splitRichTextByWord`.
The positivity hypothesis on the chunk size is exactly what makes the
loop terminate (with `chunkSize = 0` the source loops forever). -/
def splitGo (s : List Char) (c : Nat) (hc : 0 < c) (start : Nat) :
    List RichChunk :=
  if hlt : start < s.length then
    (⟨⟨(s.drop start).take (chunkEnd s c start - start)⟩⟩ : RichChunk)
      :: splitGo s c hc (nextStart s c start)
  else []
termination_by s.length - start
decreasing_by
  have h1 : start < chunkEnd s c start := lt_chunkEnd hc hlt
  have h2 : chunkEnd s c start ≤ nextStart s c start := by
    unfold nextStart
    by_cases hsp : s.get? (chunkEnd s c start) = some ' '
    · rw [if_pos hsp]
      omega
    · rw [if_neg hsp]
  omega

/-- `splitRichTextByWord(content, chunkSize)`: `none` models an absent
argument; any falsy content (absent or empty) yields `[]`. -/
def splitRichTextByWord (content : Option (List Char)) (c : Nat) (hc : 0 < c) :
    List RichChunk :=
  match content with
  | none => []
  | some s => if s.isEmpty then [] else splitGo s c hc 0

/-- The subtask `{id: 2, dependencies: [1]}` of the C4 witness. -/
def stC4 : Subtask := { id := some 2, dependencies := some [JDep.num 1] }

/-- C4 witness parent: task 5 with sibling subtask 1 present. -/
def taskC4a : Task := { id := 5, subtasks := some [{ id := some 1 }, stC4] }

/-- C4 witness parent without the sibling subtask 1. -/
def taskC4b : Task := { id := 5, subtasks := some [stC4] }

/-- C6 witness world: an event log. -/
def cOp (tag : String) : JsOp (List String) Unit :=
  { execute := fun s => (s ++ ["execute " ++ tag], .ok ())
    rollback := fun _ s => (s ++ ["rollback " ++ tag], .ok ()) }

/-- C6 witness failing third operation. -/
def cOpFail : JsOp (List String) Unit :=
  { execute := fun s => (s ++ ["execute 3"], .error { code := some "boom" })
    rollback := fun _ s => (s ++ ["rollback 3"], .ok ()) }

/-- Fires the `parent` branch of the classification chain. -/
def isParentMatch (p : NotionProp) : Bool :=
  decide (p.type = "relation") && strIncludes (strToLower p.name) "parent"

/-- Fires the `sub` branch: relation-typed, name contains "sub" but the
earlier `parent` branch did not fire. -/
def isSubMatch (p : NotionProp) : Bool :=
  decide (p.type = "relation") && strIncludes (strToLower p.name) "sub" &&
  !strIncludes (strToLower p.name) "parent"

/-- Fires the `dependenc` branch: relation-typed and neither earlier
branch fired. -/
def isDepMatch (p : NotionProp) : Bool :=
  decide (p.type = "relation") && strIncludes (strToLower p.name) "dependenc" &&
  !strIncludes (strToLower p.name) "parent" &&
  !strIncludes (strToLower p.name) "sub"

/-! ## Lemmas about the flattened maps -/

/-- Keys of `mapSet` come from the inserted key or the old map. -/
theorem mem_mapSet_fst {m : List (FlatId × FlatTask)} {k x : FlatId}
    {v : FlatTask} (h : x ∈ (mapSet m k v).map Prod.fst) :
    x = k ∨ x ∈ m.map Prod.fst := by
  induction m with
  | nil => simpa [mapSet] using h
  | cons hd tl ih =>
    by_cases hk : hd.1 = k
    · obtain ⟨k', v'⟩ := hd
      simp only at hk
      subst hk
      simp only [mapSet, if_pos] at h
      simp only [List.map_cons, List.mem_cons] at h ⊢
      tauto
    · obtain ⟨k', v'⟩ := hd
      simp only [mapSet, if_neg hk, List.map_cons, List.mem_cons] at h ⊢
      rcases h with h | h
      · tauto
      · rcases ih h with h' | h' <;> tauto

/-- `mapSet` preserves key uniqueness. -/
theorem mapSet_fst_nodup {m : List (FlatId × FlatTask)} {k : FlatId}
    {v : FlatTask} (h : (m.map Prod.fst).Nodup) :
    ((mapSet m k v).map Prod.fst).Nodup := by
  induction m with
  | nil => simp [mapSet]
  | cons hd tl ih =>
    obtain ⟨k', v'⟩ := hd
    simp only [List.map_cons, List.nodup_cons] at h
    by_cases hk : k' = k
    · subst hk
      simpa [mapSet] using h
    · simp only [mapSet, if_neg hk, List.map_cons, List.nodup_cons]
      refine ⟨fun hmem => ?_, ih h.2⟩
      rcases mem_mapSet_fst hmem with h' | h'
      · exact hk h'
      · exact h.1 h'

/-- In a map with unique keys, membership pins down `mapGet`. -/
theorem mapGet_of_mem_nodup {m : List (FlatId × FlatTask)} {k : FlatId}
    {v : FlatTask} (hnd : (m.map Prod.fst).Nodup) (h : (k, v) ∈ m) :
    mapGet m k = some v := by
  induction m with
  | nil => simp at h
  | cons hd tl ih =>
    obtain ⟨k', v'⟩ := hd
    simp only [List.map_cons, List.nodup_cons] at hnd
    rcases List.mem_cons.mp h with h | h
    · obtain ⟨hk, hv⟩ := Prod.mk.injEq .. ▸ h
      simp [mapGet, hk.symm, hv]
    · have hk : k' ≠ k := by
        rintro rfl
        exact hnd.1 (List.mem_map.mpr ⟨(k', v), h, rfl⟩)
      simp only [mapGet, if_neg hk]
      exact ih hnd.2 h

/-- A fold that preserves a predicate preserves it over a whole list. -/
theorem foldl_preserves {M β : Type} (P : M → Prop) {f : M → β → M}
    (hf : ∀ m b, P m → P (f m b)) :
    ∀ (l : List β) (m : M), P m → P (l.foldl f m)
  | [], _, hm => hm
  | b :: l, m, hm => foldl_preserves P hf l (f m b) (hf m b hm)

/-- The flattened map keys are unique (`Map.set` overwrites duplicates). -/
theorem flattenTaskInto_nodup {m : List (FlatId × FlatTask)} (t : Task)
    (hm : (m.map Prod.fst).Nodup) :
    ((flattenTaskInto m t).map Prod.fst).Nodup := by
  unfold flattenTaskInto
  apply mapSet_fst_nodup
  exact foldl_preserves (fun m => (m.map Prod.fst).Nodup)
    (fun m st hm => mapSet_fst_nodup hm) _ m hm

theorem flattenTasksMap_fst_nodup (tasks : List Task) :
    ((flattenTasksMap tasks).map Prod.fst).Nodup := by
  unfold flattenTasksMap
  refine foldl_preserves (M := List (FlatId × FlatTask))
    (fun m => (m.map Prod.fst).Nodup) ?_ tasks [] ?_
  · intro m t hm
    exact flattenTaskInto_nodup t hm
  · simp

/-- `isTaskEqual` is reflexive. -/
theorem isTaskEqual_refl (t : FlatTask) : isTaskEqual t t = true := by
  simp [isTaskEqual]

/-- Comparing a flattened map against itself yields no change records. -/
theorem compareTag_self {m : List (FlatId × FlatTask)}
    (hnd : (m.map Prod.fst).Nodup) (tag : String) : compareTag m m tag = [] := by
  unfold compareTag
  rw [List.append_eq_nil]
  constructor
  · rw [List.filterMap_eq_nil_iff]
    intro p hp
    rw [mapGet_of_mem_nodup hnd (by simpa using hp)]
    simp [isTaskEqual_refl]
  · rw [List.filterMap_eq_nil_iff]
    intro p hp
    rw [mapGet_of_mem_nodup hnd (by simpa using hp)]
    simp

/-- Membership in the fold underlying `dedupFirst`. -/
theorem mem_dedupFirst_aux (l : List String) :
    ∀ (acc : List String) (x : String),
      (x ∈ l.foldl (fun acc y => if y ∈ acc then acc else acc ++ [y]) acc) ↔
        x ∈ acc ∨ x ∈ l := by
  induction l with
  | nil => simp
  | cons hd tl ih =>
    intro acc x
    simp only [List.foldl_cons]
    by_cases hmem : hd ∈ acc
    · rw [if_pos hmem, ih]
      constructor
      · rintro (h | h)
        · exact Or.inl h
        · exact Or.inr (List.mem_cons_of_mem _ h)
      · rintro (h | h)
        · exact Or.inl h
        · rcases List.mem_cons.mp h with rfl | h
          · exact Or.inl hmem
          · exact Or.inr h
    · rw [if_neg hmem, ih]
      simp only [List.mem_append, List.mem_singleton, List.mem_cons]
      tauto

/-- `dedupFirst` preserves membership. -/
theorem mem_dedupFirst {l : List String} {x : String} :
    x ∈ dedupFirst l ↔ x ∈ l := by
  unfold dedupFirst
  rw [mem_dedupFirst_aux]
  simp

/-- A flat-map over empty pieces is empty. -/
theorem flatMap_eq_nil_of_forall {α β : Type} {f : α → List β} :
    ∀ {l : List α}, (∀ x ∈ l, f x = []) → l.flatMap f = []
  | [], _ => rfl
  | x :: l, h => by
    simp only [List.flatMap_cons, h x (List.mem_cons_self x l),
      List.nil_append]
    exact flatMap_eq_nil_of_forall (fun y hy => h y (List.mem_cons_of_mem _ hy))

/-- Diffing a snapshot against itself emits nothing for any single tag of
its tag list. -/
theorem diffTag_self (S : Snapshot) (pt : List String) (tag : String) :
    diffTag S S pt pt tag = [] := by
  unfold diffTag
  rw [if_neg (by tauto), if_neg (by tauto)]
  exact compareTag_self (flattenTasksMap_fst_nodup _) tag

/-- C1: for every snapshot `S` (a mapping from tag name to
`{tasks: sequence<Task>}`), `diffTasks(S, S)` returns the empty change
list: no added, deleted, updated or moved record is emitted when the
previous and current snapshots are identical. -/
theorem diff_self_empty (S : Snapshot) : diffTasks S S = [] := by
  show movedPhase ((dedupFirst (validTags S ++ validTags S)).flatMap
    (diffTag S S (validTags S) (validTags S))) = []
  rw [flatMap_eq_nil_of_forall (fun tag _ => diffTag_self S _ tag)]
  rfl

/-- C3: moving the single task `{id: 1, title: "A", status: "pending"}`
from tag `"x"` to tag `"y"` yields exactly one change record — a `moved`
record with `prev_tag = "x"` and `tag = "y"` — and in particular zero
`added` and zero `deleted` records. -/
theorem diff_single_move :
    diffTasks [("x", some [{ id := 1, title := some "A", status := some "pending" }])]
        [("y", some [{ id := 1, title := some "A", status := some "pending" }])] =
      [Change.moved (.num 1) (.num 1) "x" "y"
        (flatParent { id := 1, title := some "A", status := some "pending" })
        (flatParent { id := 1, title := some "A", status := some "pending" })] := by
  rfl

/-- C2 (failing input): with previous tasks `{id:1, title:"A"}` and
`{id:2, title:"A"}` under tag `"x"` and current task `{id:3, title:"A"}`
under the same tag, both deletions match the single addition (the inner
loop of the moved detection never skips an already matched addition), so
the added entity `id 3` appears as the new side of two distinct `moved`
records instead of exactly one. -/
theorem diff_move_double_match :
    diffTasks [("x", some [{ id := 1, title := some "A" },
          { id := 2, title := some "A" }])]
        [("x", some [{ id := 3, title := some "A" }])] =
      [Change.moved (.num 1) (.num 3) "x" "x"
          (flatParent { id := 1, title := some "A" })
          (flatParent { id := 3, title := some "A" }),
        Change.moved (.num 2) (.num 3) "x" "x"
          (flatParent { id := 2, title := some "A" })
          (flatParent { id := 3, title := some "A" })] ∧
    (diffTasks [("x", some [{ id := 1, title := some "A" },
          { id := 2, title := some "A" }])]
        [("x", some [{ id := 3, title := some "A" }])]).countP
      (fun c => match c with
        | .moved _ cid _ _ _ _ => cid = FlatId.num 3
        | _ => false) = 2 := by
  constructor
  · rfl
  · rfl

/-- C4: inside the flattener, a subtask dependency `[1]` of the subtask
with id 2 under the parent with id 5 is rewritten to `["5.1"]` exactly
when a sibling subtask with id 1 exists; with no such sibling it stays
`[1]`; and string dependencies that already contain a dot are always left
untouched by the rewriting lambda. -/
theorem subtask_dep_rewrite (t : Task) (st : Subtask)
    (hpid : t.id = 5) (hid : st.id = some 2)
    (hdeps : st.dependencies = some [JDep.num 1]) :
    ((flatSubtask t.id t.priority (sibIds t) st).dependencies =
        some [JDep.str "5.1"] ↔ (1 : Int) ∈ sibIds t) ∧
    ((1 : Int) ∉ sibIds t →
      (flatSubtask t.id t.priority (sibIds t) st).dependencies =
        some [JDep.num 1]) ∧
    (∀ (pid : Int) (sibs : List Int) (s : String), s.contains '.' = true →
      rewriteDep pid sibs (JDep.str s) = JDep.str s) := by
  refine ⟨?_, ?_, ?_⟩
  · constructor
    · intro h
      by_contra hmem
      simp [flatSubtask, hdeps, rewriteDep, hmem] at h
    · intro hmem
      simp [flatSubtask, hdeps, rewriteDep, hmem, hpid]
      rfl
  · intro hmem
    simp [flatSubtask, hdeps, rewriteDep, hmem]
  · intro pid sibs s hdot
    simp [rewriteDep, hdot]

/-- Witness for C4 at a concrete parent: task 5 with subtasks 1 and 2,
where subtask 2 depends on `[1]`, rewrites the dependency to `"5.1"`
because sibling 1 exists; the sibling-free variant keeps `[1]`. -/
theorem subtask_dep_rewrite_witness :
    (flatSubtask taskC4a.id taskC4a.priority (sibIds taskC4a) stC4).dependencies
        = some [JDep.str "5.1"] ∧
    (flatSubtask taskC4b.id taskC4b.priority (sibIds taskC4b) stC4).dependencies
        = some [JDep.num 1] := by
  constructor
  · exact (subtask_dep_rewrite taskC4a stC4 rfl rfl rfl).1.mpr (by decide)
  · exact (subtask_dep_rewrite taskC4b stC4 rfl rfl rfl).2.1 (by decide)

/-- If the current attempt fails retryably with budget left, the loop
moves on to the next attempt. -/
theorem retryGo_step {α : Type} {fn : Nat → Except JsError α}
    {retries attempt : Nat} {e : JsError} (hf : fn attempt = .error e)
    (hr : (isRateLimit e || isConflict e || isNetwork e) = true)
    (hlt : attempt < retries) :
    retryGo fn retries attempt = retryGo fn retries (attempt + 1) := by
  rw [retryGo, hf]
  exact dif_pos ⟨hr, hlt⟩

/-- If the current attempt fails non-retryably or the budget is spent, the
loop re-raises that error immediately. -/
theorem retryGo_stop {α : Type} {fn : Nat → Except JsError α}
    {retries attempt : Nat} {e : JsError} (hf : fn attempt = .error e)
    (h : ¬((isRateLimit e || isConflict e || isNetwork e) = true ∧
      attempt < retries)) :
    retryGo fn retries attempt = (.error e, attempt + 1) := by
  rw [retryGo, hf]
  exact dif_neg h

/-- C5: an operation that fails with a rate-limit error on every attempt
is invoked exactly 4 times by `executeWithRetry` with `retries = 3` (the
initial attempt plus 3 retries) before the last error is raised; and a
non-retryable error — like any error once the budget is exhausted — is
propagated unchanged with no further invocation. -/
theorem retry_termination :
    (∀ (α : Type) (fn : Nat → Except JsError α) (e : Nat → JsError),
      (∀ i, fn i = .error (e i)) → (∀ i, isRateLimit (e i) = true) →
      executeWithRetry fn 3 = (.error (e 3), 4)) ∧
    (∀ (α : Type) (fn : Nat → Except JsError α) (retries attempt : Nat)
      (e : JsError), fn attempt = .error e →
      (isRateLimit e || isConflict e || isNetwork e) = false →
      retryGo fn retries attempt = (.error e, attempt + 1)) := by
  constructor
  · intro α fn e hf hr
    have hstep : ∀ i, i < 3 → retryGo fn 3 i = retryGo fn 3 (i + 1) := by
      intro i hi
      exact retryGo_step (hf i) (by simp [hr i]) hi
    have hlast : retryGo fn 3 3 = (.error (e 3), 4) := by
      refine retryGo_stop (hf 3) ?_
      rintro ⟨-, hlt⟩
      omega
    unfold executeWithRetry
    rw [hstep 0 (by omega), hstep 1 (by omega), hstep 2 (by omega), hlast]
  · intro α fn retries attempt e hf hr
    refine retryGo_stop hf ?_
    rintro ⟨hcase, -⟩
    rw [hr] at hcase
    exact Bool.false_ne_true hcase

/-- Witness for C5: the constant `status: 429` failure is invoked exactly
4 times under `retries = 3`, and a plain error (no status, no code) is
re-raised after a single invocation. -/
theorem retry_termination_witness :
    executeWithRetry (fun _ => (.error { status := some 429 } :
        Except JsError Unit)) 3 = (.error { status := some 429 }, 4) ∧
    retryGo (fun _ => (.error {} : Except JsError Unit)) 3 0 =
      (.error {}, 1) := by
  have h429 : isRateLimit { status := some 429 } = true := by decide
  have hplain : (isRateLimit {} || isConflict {} || isNetwork {}) = false := by
    decide
  constructor
  · exact retry_termination.1 Unit _ (fun _ => { status := some 429 })
      (fun _ => rfl) (fun _ => h429)
  · exact retry_termination.2 Unit _ 3 0 {} rfl hplain

/-- C6: in a composite of three operations where the first two succeed and
the third throws, the executed operations are rolled back in reverse
execution order — the second's rollback is applied to the post-failure
world first, then the first's — each exactly once, and the triggering
error is re-thrown unchanged. -/
theorem composite_rollback {σ ρ : Type} (op1 op2 op3 : JsOp σ ρ)
    (s0 s1 s2 s3 : σ) (r1 r2 : ρ) (e : JsError)
    (h1 : op1.execute s0 = (s1, .ok r1))
    (h2 : op2.execute s1 = (s2, .ok r2))
    (h3 : op3.execute s2 = (s3, .error e)) :
    compositeExecute [op1, op2, op3] s0 =
      ((op1.rollback r1 (op2.rollback r2 s3).1).1, .error e) := by
  simp only [compositeExecute, compositeGo, h1, h2, h3, rollbackExecuted]
  simp

/-- Witness for C6: with a concrete event log the composite records the
two successful executes, the failing third execute, then rollback 2 and
rollback 1 in that order, and returns the original error. -/
theorem composite_rollback_witness :
    compositeExecute [cOp "1", cOp "2", cOpFail] [] =
      (["execute 1", "execute 2", "execute 3", "rollback 2", "rollback 1"],
        .error { code := some "boom" }) := by
  exact composite_rollback (cOp "1") (cOp "2") cOpFail
    [] ["execute 1"] ["execute 1", "execute 2"]
    ["execute 1", "execute 2", "execute 3"] () () { code := some "boom" }
    rfl rfl rfl

/-- Effect of one classification step on the parent fields. -/
theorem relStep_parent_fields (st : RelStatus) (p : NotionProp) :
    (isParentMatch p = true ∧ (relStep st p).hasParentRelation = true ∧
      (relStep st p).parentRelationName = some p.name) ∨
    (isParentMatch p = false ∧
      (relStep st p).hasParentRelation = st.hasParentRelation ∧
      (relStep st p).parentRelationName = st.parentRelationName) := by
  unfold relStep isParentMatch
  by_cases h1 : p.type = "relation"
  · by_cases h2 : strIncludes (strToLower p.name) "parent" = true
    · left
      simp [h1, h2]
    · right
      by_cases h3 : strIncludes (strToLower p.name) "sub" = true
      · simp [h1, h2, h3]
      · by_cases h4 : strIncludes (strToLower p.name) "dependenc" = true
        · simp [h1, h2, h3, h4]
        · simp [h1, h2, h3, h4]
  · right
    simp [h1]

/-- Effect of one classification step on the sub-item fields. -/
theorem relStep_sub_fields (st : RelStatus) (p : NotionProp) :
    (isSubMatch p = true ∧ (relStep st p).hasSubItemRelation = true ∧
      (relStep st p).subItemRelationName = some p.name) ∨
    (isSubMatch p = false ∧
      (relStep st p).hasSubItemRelation = st.hasSubItemRelation ∧
      (relStep st p).subItemRelationName = st.subItemRelationName) := by
  unfold relStep isSubMatch
  by_cases h1 : p.type = "relation"
  · by_cases h2 : strIncludes (strToLower p.name) "parent" = true
    · right
      simp [h1, h2]
    · by_cases h3 : strIncludes (strToLower p.name) "sub" = true
      · left
        simp [h1, h2, h3]
      · by_cases h4 : strIncludes (strToLower p.name) "dependenc" = true
        · simp [h1, h2, h3, h4]
        · simp [h1, h2, h3, h4]
  · right
    simp [h1]

/-- Effect of one classification step on the dependency fields. -/
theorem relStep_dep_fields (st : RelStatus) (p : NotionProp) :
    (isDepMatch p = true ∧ (relStep st p).hasDependencyRelation = true ∧
      (relStep st p).dependencyRelationName = some p.name) ∨
    (isDepMatch p = false ∧
      (relStep st p).hasDependencyRelation = st.hasDependencyRelation ∧
      (relStep st p).dependencyRelationName = st.dependencyRelationName) := by
  unfold relStep isDepMatch
  by_cases h1 : p.type = "relation"
  · by_cases h2 : strIncludes (strToLower p.name) "parent" = true
    · right
      simp [h1, h2]
    · by_cases h3 : strIncludes (strToLower p.name) "sub" = true
      · right
        simp [h1, h2, h3]
      · by_cases h4 : strIncludes (strToLower p.name) "dependenc" = true
        · left
          simp [h1, h2, h3, h4]
        · simp [h1, h2, h3, h4]
  · right
    simp [h1]

/-- The parent flag after the whole fold. -/
theorem fold_hasParent (l : List NotionProp) : ∀ (st : RelStatus),
    (l.foldl relStep st).hasParentRelation =
      (st.hasParentRelation || l.any isParentMatch) := by
  induction l with
  | nil => intro st; simp
  | cons p tl ih =>
    intro st
    rw [List.foldl_cons, ih, List.any_cons]
    rcases relStep_parent_fields st p with ⟨h1, h2, _⟩ | ⟨h1, h2, _⟩ <;>
      simp [h1, h2]

/-- The sub-item flag after the whole fold. -/
theorem fold_hasSub (l : List NotionProp) : ∀ (st : RelStatus),
    (l.foldl relStep st).hasSubItemRelation =
      (st.hasSubItemRelation || l.any isSubMatch) := by
  induction l with
  | nil => intro st; simp
  | cons p tl ih =>
    intro st
    rw [List.foldl_cons, ih, List.any_cons]
    rcases relStep_sub_fields st p with ⟨h1, h2, _⟩ | ⟨h1, h2, _⟩ <;>
      simp [h1, h2]

/-- The dependency flag after the whole fold. -/
theorem fold_hasDep (l : List NotionProp) : ∀ (st : RelStatus),
    (l.foldl relStep st).hasDependencyRelation =
      (st.hasDependencyRelation || l.any isDepMatch) := by
  induction l with
  | nil => intro st; simp
  | cons p tl ih =>
    intro st
    rw [List.foldl_cons, ih, List.any_cons]
    rcases relStep_dep_fields st p with ⟨h1, h2, _⟩ | ⟨h1, h2, _⟩ <;>
      simp [h1, h2]

/-- Where the reported parent name comes from. -/
theorem fold_parentName (l : List NotionProp) : ∀ (st : RelStatus),
    (l.foldl relStep st).hasParentRelation = true →
    (∃ p ∈ l, isParentMatch p = true ∧
      (l.foldl relStep st).parentRelationName = some p.name) ∨
    (st.hasParentRelation = true ∧
      (l.foldl relStep st).parentRelationName = st.parentRelationName) := by
  induction l with
  | nil => intro st h; right; exact ⟨h, rfl⟩
  | cons p tl ih =>
    intro st h
    rw [List.foldl_cons] at h ⊢
    rcases ih (relStep st p) h with ⟨q, hq, hmatch, hname⟩ | ⟨hflag, hname⟩
    · exact Or.inl ⟨q, List.mem_cons_of_mem _ hq, hmatch, hname⟩
    · rcases relStep_parent_fields st p with ⟨h1, _, h3⟩ | ⟨_, h2, h3⟩
      · exact Or.inl ⟨p, List.mem_cons_self _ _, h1, hname.trans h3⟩
      · exact Or.inr ⟨h2 ▸ hflag, hname.trans h3⟩

/-- Where the reported sub-item name comes from. -/
theorem fold_subName (l : List NotionProp) : ∀ (st : RelStatus),
    (l.foldl relStep st).hasSubItemRelation = true →
    (∃ p ∈ l, isSubMatch p = true ∧
      (l.foldl relStep st).subItemRelationName = some p.name) ∨
    (st.hasSubItemRelation = true ∧
      (l.foldl relStep st).subItemRelationName = st.subItemRelationName) := by
  induction l with
  | nil => intro st h; right; exact ⟨h, rfl⟩
  | cons p tl ih =>
    intro st h
    rw [List.foldl_cons] at h ⊢
    rcases ih (relStep st p) h with ⟨q, hq, hmatch, hname⟩ | ⟨hflag, hname⟩
    · exact Or.inl ⟨q, List.mem_cons_of_mem _ hq, hmatch, hname⟩
    · rcases relStep_sub_fields st p with ⟨h1, _, h3⟩ | ⟨_, h2, h3⟩
      · exact Or.inl ⟨p, List.mem_cons_self _ _, h1, hname.trans h3⟩
      · exact Or.inr ⟨h2 ▸ hflag, hname.trans h3⟩

/-- Where the reported dependency name comes from. -/
theorem fold_depName (l : List NotionProp) : ∀ (st : RelStatus),
    (l.foldl relStep st).hasDependencyRelation = true →
    (∃ p ∈ l, isDepMatch p = true ∧
      (l.foldl relStep st).dependencyRelationName = some p.name) ∨
    (st.hasDependencyRelation = true ∧
      (l.foldl relStep st).dependencyRelationName = st.dependencyRelationName) := by
  induction l with
  | nil => intro st h; right; exact ⟨h, rfl⟩
  | cons p tl ih =>
    intro st h
    rw [List.foldl_cons] at h ⊢
    rcases ih (relStep st p) h with ⟨q, hq, hmatch, hname⟩ | ⟨hflag, hname⟩
    · exact Or.inl ⟨q, List.mem_cons_of_mem _ hq, hmatch, hname⟩
    · rcases relStep_dep_fields st p with ⟨h1, _, h3⟩ | ⟨_, h2, h3⟩
      · exact Or.inl ⟨p, List.mem_cons_self _ _, h1, hname.trans h3⟩
      · exact Or.inr ⟨h2 ▸ hflag, hname.trans h3⟩

/-- C9 counterexample: the single relation property named
`"Parent sub-items"` has a name containing `"sub"` case-insensitively,
yet `checkRelationProperties` reports `hasSubItemRelation = false`,
because the `else if` chain stops at the `parent` match. -/
theorem relation_capability_counterexample :
    (checkRelationProperties
        [{ name := "Parent sub-items", type := "relation" }]).hasSubItemRelation
        = false ∧
    strIncludes (strToLower "Parent sub-items") "sub" = true ∧
    (checkRelationProperties
        [{ name := "Parent sub-items", type := "relation" }]).hasParentRelation
        = true := by
  refine ⟨?_, ?_, ?_⟩ <;> decide

/-- C9 (amended): `hasParentRelation` holds exactly when some
relation-typed property's lowercased name contains `"parent"`;
`hasSubItemRelation` exactly when some relation-typed property's name
contains `"sub"` but not `"parent"`; `hasDependencyRelation` exactly when
some relation-typed property's name contains `"dependenc"` but neither
`"parent"` nor `"sub"` (the branches form an `else if` chain); whenever a
flag is set, the corresponding name field reports the exact name of a
property that fired that branch.  Non-relation properties never set any
flag. -/
theorem relation_capability_detection (props : List NotionProp) :
    ((checkRelationProperties props).hasParentRelation = true ↔
      ∃ p ∈ props, p.type = "relation" ∧
        strIncludes (strToLower p.name) "parent" = true) ∧
    ((checkRelationProperties props).hasSubItemRelation = true ↔
      ∃ p ∈ props, p.type = "relation" ∧
        strIncludes (strToLower p.name) "sub" = true ∧
        strIncludes (strToLower p.name) "parent" = false) ∧
    ((checkRelationProperties props).hasDependencyRelation = true ↔
      ∃ p ∈ props, p.type = "relation" ∧
        strIncludes (strToLower p.name) "dependenc" = true ∧
        strIncludes (strToLower p.name) "parent" = false ∧
        strIncludes (strToLower p.name) "sub" = false) ∧
    ((checkRelationProperties props).hasParentRelation = true →
      ∃ p ∈ props, isParentMatch p = true ∧
        (checkRelationProperties props).parentRelationName = some p.name) ∧
    ((checkRelationProperties props).hasSubItemRelation = true →
      ∃ p ∈ props, isSubMatch p = true ∧
        (checkRelationProperties props).subItemRelationName = some p.name) ∧
    ((checkRelationProperties props).hasDependencyRelation = true →
      ∃ p ∈ props, isDepMatch p = true ∧
        (checkRelationProperties props).dependencyRelationName = some p.name) := by
  have hmatch : ∀ p : NotionProp, isParentMatch p = true ↔
      (p.type = "relation" ∧ strIncludes (strToLower p.name) "parent" = true) := by
    intro p
    simp [isParentMatch]
  have hsub : ∀ p : NotionProp, isSubMatch p = true ↔
      (p.type = "relation" ∧ strIncludes (strToLower p.name) "sub" = true ∧
        strIncludes (strToLower p.name) "parent" = false) := by
    intro p
    simp only [isSubMatch, Bool.and_eq_true, Bool.not_eq_true', decide_eq_true_eq]
    tauto
  have hdep : ∀ p : NotionProp, isDepMatch p = true ↔
      (p.type = "relation" ∧ strIncludes (strToLower p.name) "dependenc" = true ∧
        strIncludes (strToLower p.name) "parent" = false ∧
        strIncludes (strToLower p.name) "sub" = false) := by
    intro p
    simp only [isDepMatch, Bool.and_eq_true, Bool.not_eq_true', decide_eq_true_eq]
    tauto
  refine ⟨?_, ?_, ?_, ?_, ?_, ?_⟩
  · rw [checkRelationProperties, fold_hasParent]
    simp only [Bool.false_or, List.any_eq_true]
    exact ⟨fun ⟨p, hp, hm⟩ => ⟨p, hp, (hmatch p).mp hm⟩,
      fun ⟨p, hp, hm⟩ => ⟨p, hp, (hmatch p).mpr hm⟩⟩
  · rw [checkRelationProperties, fold_hasSub]
    simp only [Bool.false_or, List.any_eq_true]
    exact ⟨fun ⟨p, hp, hm⟩ => ⟨p, hp, (hsub p).mp hm⟩,
      fun ⟨p, hp, hm⟩ => ⟨p, hp, (hsub p).mpr hm⟩⟩
  · rw [checkRelationProperties, fold_hasDep]
    simp only [Bool.false_or, List.any_eq_true]
    exact ⟨fun ⟨p, hp, hm⟩ => ⟨p, hp, (hdep p).mp hm⟩,
      fun ⟨p, hp, hm⟩ => ⟨p, hp, (hdep p).mpr hm⟩⟩
  · intro h
    rcases fold_parentName props {} h with hc | ⟨hc, _⟩
    · exact hc
    · exact absurd hc (by simp)
  · intro h
    rcases fold_subName props {} h with hc | ⟨hc, _⟩
    · exact hc
    · exact absurd hc (by simp)
  · intro h
    rcases fold_depName props {} h with hc | ⟨hc, _⟩
    · exact hc
    · exact absurd hc (by simp)

/-- Witness for C9 at a concrete schema: a `"Parent task"` relation, a
`"Sub-items"` relation and a `"Dependencies"` relation set all three
flags. -/
theorem relation_capability_detection_witness :
    (checkRelationProperties
        [{ name := "Parent task", type := "relation" },
          { name := "Sub-items", type := "relation" },
          { name := "Dependencies", type := "relation" }]).hasParentRelation
        = true ∧
    (checkRelationProperties
        [{ name := "Parent task", type := "relation" },
          { name := "Sub-items", type := "relation" },
          { name := "Dependencies", type := "relation" }]).hasSubItemRelation
        = true ∧
    (checkRelationProperties
        [{ name := "Parent task", type := "relation" },
          { name := "Sub-items", type := "relation" },
          { name := "Dependencies", type := "relation" }]).hasDependencyRelation
        = true := by
  refine ⟨?_, ?_, ?_⟩
  · exact (relation_capability_detection _).1.mpr
      ⟨{ name := "Parent task", type := "relation" }, by decide, rfl, by decide⟩
  · exact (relation_capability_detection _).2.1.mpr
      ⟨{ name := "Sub-items", type := "relation" }, by decide, rfl, by decide,
        by decide⟩
  · exact (relation_capability_detection _).2.2.1.mpr
      ⟨{ name := "Dependencies", type := "relation" }, by decide, rfl, by decide,
        by decide, by decide⟩

/-- `start` never moves backwards past the chunk end. -/
theorem chunkEnd_le_nextStart (s : List Char) (c start : Nat) :
    chunkEnd s c start ≤ nextStart s c start := by
  unfold nextStart
  by_cases hsp : s.get? (chunkEnd s c start) = some ' '
  · rw [if_pos hsp]
    omega
  · rw [if_neg hsp]

/-- Every chunk the splitting loop emits holds at most `c` characters. -/
theorem splitGo_chunk_le (s : List Char) (c : Nat) (hc : 0 < c) :
    ∀ (n start : Nat), s.length - start ≤ n →
      ∀ chunk ∈ splitGo s c hc start, chunk.text.content.length ≤ c := by
  intro n
  induction n with
  | zero =>
    intro start hle chunk hmem
    rw [splitGo, dif_neg (by omega)] at hmem
    simp at hmem
  | succ n ih =>
    intro start hle chunk hmem
    rw [splitGo] at hmem
    by_cases hlt : start < s.length
    · rw [dif_pos hlt] at hmem
      rcases List.mem_cons.mp hmem with rfl | hmem'
      · have h1 : chunkEnd s c start ≤ start + c := by
          have h2 := chunkEnd_le_chunkEnd0 s c start
          unfold chunkEnd0 at h2
          omega
        have h3 := List.length_take_le (chunkEnd s c start - start) (s.drop start)
        simp only []
        omega
      · have h4 := lt_chunkEnd hc hlt
        have h5 := chunkEnd_le_nextStart s c start
        exact ih (nextStart s c start) (by omega) chunk hmem'
    · rw [dif_neg hlt] at hmem
      simp at hmem

/-- C10: for every positive chunk size (the default is 2000) the splitter
terminates — it is a total function, the loop measure being the distance
from `start` to the end of the content — returns `[]` for absent or empty
content, and every emitted fragment's text content is at most `chunkSize`
characters long, so no fragment ever exceeds the remote API's limit. -/
theorem split_rich_text_bound (c : Nat) (hc : 0 < c) :
    splitRichTextByWord none c hc = [] ∧
    splitRichTextByWord (some []) c hc = [] ∧
    ∀ (s : List Char), ∀ chunk ∈ splitRichTextByWord (some s) c hc,
      chunk.text.content.length ≤ c := by
  refine ⟨rfl, rfl, ?_⟩
  intro s chunk hmem
  simp only [splitRichTextByWord] at hmem
  by_cases hs : s.isEmpty
  · rw [if_pos hs] at hmem
    simp at hmem
  · rw [if_neg hs] at hmem
    exact splitGo_chunk_le s c hc s.length 0 (by omega) chunk hmem

/-- Witness for C10 at the default chunk size 2000. -/
theorem split_rich_text_bound_witness :
    splitRichTextByWord none 2000 (by decide) = [] ∧
    splitRichTextByWord (some []) 2000 (by decide) = [] := by
  exact ⟨(split_rich_text_bound 2000 (by decide)).1,
    (split_rich_text_bound 2000 (by decide)).2.1⟩

/-- C8: a subtask whose id is missing (`null`/`undefined`) is skipped
entirely by the flattener — inserting one anywhere among a task's
subtasks changes neither the flattened entity list (so no entity is
produced for it and it does not appear in the parent's compound-id
reference list) nor the flattened map, and in particular it does not
participate in sibling dependency rewriting. -/
theorem null_id_subtask_skipped (pre post : List Task) (t : Task)
    (tag : String) (l1 l2 : List Subtask) (st : Subtask)
    (hid : st.id = none) :
    flattenTasksWithTag
        (pre ++ { t with subtasks := some (l1 ++ st :: l2) } :: post) tag =
      flattenTasksWithTag
        (pre ++ { t with subtasks := some (l1 ++ l2) } :: post) tag ∧
    flattenTasksMap
        (pre ++ { t with subtasks := some (l1 ++ st :: l2) } :: post) =
      flattenTasksMap
        (pre ++ { t with subtasks := some (l1 ++ l2) } :: post) := by
  have hvs : validSubtasks { t with subtasks := some (l1 ++ st :: l2) } =
      validSubtasks { t with subtasks := some (l1 ++ l2) } := by
    simp [validSubtasks, List.filter_append, List.filter_cons, hid]
  have hsib : sibIds { t with subtasks := some (l1 ++ st :: l2) } =
      sibIds { t with subtasks := some (l1 ++ l2) } := by
    simp [sibIds, hvs]
  have hfp : flatParent { t with subtasks := some (l1 ++ st :: l2) } =
      flatParent { t with subtasks := some (l1 ++ l2) } := by
    simp [flatParent, hvs]
  constructor
  · unfold flattenTasksWithTag
    rw [List.flatMap_append, List.flatMap_append, List.flatMap_cons,
      List.flatMap_cons]
    simp only [hvs, hsib, hfp]
  · unfold flattenTasksMap
    rw [List.foldl_append, List.foldl_append, List.foldl_cons, List.foldl_cons]
    have hinto : ∀ m, flattenTaskInto m { t with subtasks := some (l1 ++ st :: l2) } =
        flattenTaskInto m { t with subtasks := some (l1 ++ l2) } := by
      intro m
      simp only [flattenTaskInto, hvs, hsib, hfp]
    rw [hinto]

/-- Witness for C8: a null-id subtask inserted before subtask 1 of task 7
leaves both flattened views unchanged. -/
theorem null_id_subtask_skipped_witness :
    flattenTasksWithTag
        [{ id := 7, subtasks := some [{ id := none, title := some "ghost" },
          { id := some 1 }] }] "m" =
      flattenTasksWithTag [{ id := 7, subtasks := some [{ id := some 1 }] }]
        "m" ∧
    flattenTasksMap
        [{ id := 7, subtasks := some [{ id := none, title := some "ghost" },
          { id := some 1 }] }] =
      flattenTasksMap [{ id := 7, subtasks := some [{ id := some 1 }] }] := by
  exact null_id_subtask_skipped [] [] { id := 7 } "m" []
    [{ id := some 1 }] { id := none, title := some "ghost" } rfl

/-- A successful object lookup exhibits a member. -/
theorem objGet_mem {β : Type} {l : List (String × β)} {k : String} {v : β}
    (h : objGet l k = some v) : (k, v) ∈ l := by
  induction l with
  | nil => simp [objGet] at h
  | cons hd tl ih =>
    obtain ⟨k', v'⟩ := hd
    rw [objGet] at h
    by_cases hk : k' = k
    · subst hk
      rw [if_pos rfl] at h
      exact List.mem_cons.mpr (Or.inl (by simpa using h.symm))
    · rw [if_neg hk] at h
      exact List.mem_cons_of_mem _ (ih h)

/-- An address held by a well-formed mapping points into the heap. -/
theorem wfMap_lt {h : Heap} {m : MapObj} {tag : String} {a : Nat}
    (hwf : wfMap h m = true) (hmem : (tag, a) ∈ m.entries) :
    a < h.tbls.length := by
  unfold wfMap at hwf
  rw [List.all_eq_true] at hwf
  simpa using hwf _ hmem

/-- Looking up a key that the filter just removed yields nothing. -/
theorem objGet_filter_ne {β : Type} (l : List (String × β)) (k : String) :
    objGet (l.filter (fun p => p.1 ≠ k)) k = none := by
  induction l with
  | nil => simp [objGet]
  | cons hd tl ih =>
    obtain ⟨k', v'⟩ := hd
    rw [List.filter_cons]
    by_cases hk : k' = k
    · rw [if_neg (by simp [hk])]
      exact ih
    · rw [if_pos (by simp [hk])]
      rw [objGet, if_neg hk]
      exact ih

/-- Appending a fresh binding and then reading key `q`. -/
theorem objGet_append_single {β : Type} (t : List (String × β)) (k : String)
    (v : β) (q : String) (hnone : objGet t k = none) :
    objGet (t ++ [(k, v)]) q = if q = k then some v else objGet t q := by
  induction t with
  | nil =>
    by_cases hq : q = k
    · subst hq
      simp [objGet]
    · simp [objGet, hq, Ne.symm hq]
  | cons hd tl ih =>
    obtain ⟨k', v'⟩ := hd
    rw [objGet] at hnone
    by_cases hkk : k' = k
    · rw [if_pos hkk] at hnone
      exact absurd hnone (by simp)
    · rw [if_neg hkk] at hnone
      by_cases hq : k' = q
      · subst hq
        have hqk : ¬(k' = k) := hkk
        simp [objGet, hqk]
      · simp only [List.cons_append, objGet, if_neg hq]
        exact ih hnone

/-- `tbl[k] = v` then `tbl[q]`: the written key reads back `v`, all other
keys are untouched. -/
theorem tblSet_objGet (t : InnerTbl) (k v q : String) :
    objGet (tblSet t k v) q = if q = k then some v else objGet t q := by
  induction t with
  | nil =>
    by_cases hq : q = k
    · subst hq
      simp [tblSet, objGet]
    · simp [tblSet, objGet, hq, Ne.symm hq]
  | cons hd tl ih =>
    obtain ⟨k', v'⟩ := hd
    rw [tblSet]
    by_cases hk : k' = k
    · subst hk
      rw [if_pos rfl]
      by_cases hq : q = k'
      · subst hq
        simp [objGet]
      · simp [objGet, hq, Ne.symm hq]
    · rw [if_neg hk]
      by_cases hq : k' = q
      · subst hq
        simp [objGet, hk]
      · simp [objGet, hq, ih]

/-- `delete tbl[k]` makes `k` unreadable. -/
theorem tblDel_objGet_self (t : InnerTbl) (k : String) :
    objGet (tblDel t k) k = none :=
  objGet_filter_ne t k

/-- Reading the slot that was just overwritten. -/
theorem readInner_heapSetTbl_self {h : Heap} {a : Nat} (t : InnerTbl)
    (ha : a < h.tbls.length) : readInner (heapSetTbl h a t) a = t := by
  unfold readInner heapSetTbl
  rw [List.getElem?_set_eq_of_lt _ ha]
  rfl

/-- Slots below the end of the heap are unaffected by an allocation. -/
theorem readInner_alloc {h : Heap} {a : Nat} (t : InnerTbl)
    (ha : a < h.tbls.length) : readInner ⟨h.tbls ++ [t]⟩ a = readInner h a := by
  unfold readInner
  rw [List.getElem?_append_left ha]

/-- C7 counterexample: `setNotionPageId` on an existing tag writes through
the shared inner table — after the call the *original* mapping object
observably contains the new pair, so the original is not left unchanged;
`removeNotionPageId` likewise deletes through the shared inner table. -/
theorem mapping_cow_counterexample :
    getNotionPageId
        (setNotionPageId ⟨[[("1", "a")]]⟩ ⟨[("x", 0)]⟩ "x" "2" "b").1
        ⟨[("x", 0)]⟩ "x" "2" = some "b" ∧
    getNotionPageId ⟨[[("1", "a")]]⟩ ⟨[("x", 0)]⟩ "x" "2" = none ∧
    getNotionPageId
        (removeNotionPageId ⟨[[("1", "a"), ("2", "b")]]⟩ ⟨[("x", 0)]⟩ "x" "1").1
        ⟨[("x", 0)]⟩ "x" "1" = none ∧
    getNotionPageId ⟨[[("1", "a"), ("2", "b")]]⟩ ⟨[("x", 0)]⟩ "x" "1"
        = some "a" := by
  refine ⟨?_, ?_, ?_, ?_⟩ <;> rfl

/-- C7 (amended): `setNotionPageId` and `removeNotionPageId` each return a
new top-level mapping object that reflects the update, but the per-tag
inner tables are shared with the input: when the tag already exists, the
written (resp. deleted) pair is observable through the original mapping;
only when `set` targets a tag absent from the original is the original
left fully unchanged. -/
theorem mapping_shallow_copy (h : Heap) (m : MapObj) (tag id rid : String) :
    (wfMap h m = true →
      getNotionPageId (setNotionPageId h m tag id rid).1
        (setNotionPageId h m tag id rid).2 tag id = some rid) ∧
    (∀ a, objGet m.entries tag = some a → wfMap h m = true →
      getNotionPageId (setNotionPageId h m tag id rid).1 m tag id = some rid) ∧
    (objGet m.entries tag = none → wfMap h m = true → ∀ tag' id',
      getNotionPageId (setNotionPageId h m tag id rid).1 m tag' id' =
        getNotionPageId h m tag' id') ∧
    (wfMap h m = true →
      getNotionPageId (removeNotionPageId h m tag id).1
        (removeNotionPageId h m tag id).2 tag id = none) ∧
    (∀ a, objGet m.entries tag = some a → wfMap h m = true →
      getNotionPageId (removeNotionPageId h m tag id).1 m tag id = none) := by
  refine ⟨?_, ?_, ?_, ?_, ?_⟩
  · intro hwf
    simp only [setNotionPageId]
    cases hlook : objGet m.entries tag with
    | some a =>
      have ha : a < h.tbls.length := wfMap_lt hwf (objGet_mem hlook)
      show getNotionPageId (heapSetTbl h a (tblSet (readInner h a) id rid))
        ⟨m.entries⟩ tag id = some rid
      simp only [getNotionPageId]
      rw [show objGet (MapObj.mk m.entries).entries tag = some a from hlook]
      show objGet (readInner (heapSetTbl h a (tblSet (readInner h a) id rid)) a)
        id = some rid
      rw [readInner_heapSetTbl_self _ ha, tblSet_objGet, if_pos rfl]
    | none =>
      show getNotionPageId ⟨h.tbls ++ [tblSet [] id rid]⟩
        ⟨m.entries ++ [(tag, h.tbls.length)]⟩ tag id = some rid
      have hfind : objGet (m.entries ++ [(tag, h.tbls.length)]) tag =
          some h.tbls.length := by
        rw [objGet_append_single _ _ _ _ hlook, if_pos rfl]
      simp only [getNotionPageId]
      rw [show objGet (MapObj.mk (m.entries ++ [(tag, h.tbls.length)])).entries
          tag = some h.tbls.length from hfind]
      show objGet (readInner ⟨h.tbls ++ [tblSet [] id rid]⟩ h.tbls.length) id
        = some rid
      have hread : readInner ⟨h.tbls ++ [tblSet [] id rid]⟩ h.tbls.length =
          tblSet [] id rid := by
        unfold readInner
        simp
      rw [hread, tblSet_objGet, if_pos rfl]
  · intro a hlook hwf
    have ha : a < h.tbls.length := wfMap_lt hwf (objGet_mem hlook)
    simp only [setNotionPageId]
    rw [hlook]
    show getNotionPageId (heapSetTbl h a (tblSet (readInner h a) id rid))
      m tag id = some rid
    simp only [getNotionPageId]
    rw [hlook]
    show objGet (readInner (heapSetTbl h a (tblSet (readInner h a) id rid)) a)
      id = some rid
    rw [readInner_heapSetTbl_self _ ha, tblSet_objGet, if_pos rfl]
  · intro hlook hwf tag' id'
    simp only [setNotionPageId]
    rw [hlook]
    show getNotionPageId ⟨h.tbls ++ [tblSet [] id rid]⟩ m tag' id' =
      getNotionPageId h m tag' id'
    simp only [getNotionPageId]
    cases hlook' : objGet m.entries tag' with
    | none => rfl
    | some a =>
      have ha : a < h.tbls.length := wfMap_lt hwf (objGet_mem hlook')
      show objGet (readInner ⟨h.tbls ++ [tblSet [] id rid]⟩ a) id' =
        objGet (readInner h a) id'
      rw [readInner_alloc _ ha]
  · intro hwf
    simp only [removeNotionPageId]
    cases hlook : objGet m.entries tag with
    | none =>
      show getNotionPageId h ⟨m.entries⟩ tag id = none
      simp only [getNotionPageId]
      rw [show objGet (MapObj.mk m.entries).entries tag = none from hlook]
    | some a =>
      have ha : a < h.tbls.length := wfMap_lt hwf (objGet_mem hlook)
      show getNotionPageId
        (if (tblDel (readInner h a) id).isEmpty = true then
          (heapSetTbl h a (tblDel (readInner h a) id),
            (⟨m.entries.filter (fun p => p.1 ≠ tag)⟩ : MapObj))
        else (heapSetTbl h a (tblDel (readInner h a) id), ⟨m.entries⟩)).1
        (if (tblDel (readInner h a) id).isEmpty = true then
          (heapSetTbl h a (tblDel (readInner h a) id),
            (⟨m.entries.filter (fun p => p.1 ≠ tag)⟩ : MapObj))
        else (heapSetTbl h a (tblDel (readInner h a) id), ⟨m.entries⟩)).2
        tag id = none
      by_cases hempty : (tblDel (readInner h a) id).isEmpty = true
      · rw [if_pos hempty]
        show getNotionPageId (heapSetTbl h a (tblDel (readInner h a) id))
          ⟨m.entries.filter (fun p => p.1 ≠ tag)⟩ tag id = none
        simp only [getNotionPageId]
        rw [show objGet (MapObj.mk (m.entries.filter
            (fun p => p.1 ≠ tag))).entries tag = none from
          objGet_filter_ne m.entries tag]
      · rw [if_neg hempty]
        show getNotionPageId (heapSetTbl h a (tblDel (readInner h a) id))
          ⟨m.entries⟩ tag id = none
        simp only [getNotionPageId]
        rw [show objGet (MapObj.mk m.entries).entries tag = some a from hlook]
        show objGet (readInner (heapSetTbl h a (tblDel (readInner h a) id)) a)
          id = none
        rw [readInner_heapSetTbl_self _ ha, tblDel_objGet_self]
  · intro a hlook hwf
    have ha : a < h.tbls.length := wfMap_lt hwf (objGet_mem hlook)
    simp only [removeNotionPageId]
    rw [hlook]
    show getNotionPageId
      (if (tblDel (readInner h a) id).isEmpty = true then
        (heapSetTbl h a (tblDel (readInner h a) id),
          (⟨m.entries.filter (fun p => p.1 ≠ tag)⟩ : MapObj))
      else (heapSetTbl h a (tblDel (readInner h a) id), ⟨m.entries⟩)).1
      m tag id = none
    by_cases hempty : (tblDel (readInner h a) id).isEmpty = true
    · rw [if_pos hempty]
      show getNotionPageId (heapSetTbl h a (tblDel (readInner h a) id))
        m tag id = none
      simp only [getNotionPageId]
      rw [hlook]
      show objGet (readInner (heapSetTbl h a (tblDel (readInner h a) id)) a)
        id = none
      rw [readInner_heapSetTbl_self _ ha, tblDel_objGet_self]
    · rw [if_neg hempty]
      show getNotionPageId (heapSetTbl h a (tblDel (readInner h a) id))
        m tag id = none
      simp only [getNotionPageId]
      rw [hlook]
      show objGet (readInner (heapSetTbl h a (tblDel (readInner h a) id)) a)
        id = none
      rw [readInner_heapSetTbl_self _ ha, tblDel_objGet_self]

/-- Witness for C7's amended statement at a concrete heap and mapping. -/
theorem mapping_shallow_copy_witness :
    getNotionPageId
        (setNotionPageId ⟨[[("1", "a")]]⟩ ⟨[("x", 0)]⟩ "x" "2" "b").1
        (setNotionPageId ⟨[[("1", "a")]]⟩ ⟨[("x", 0)]⟩ "x" "2" "b").2
        "x" "2" = some "b" ∧
    getNotionPageId
        (removeNotionPageId ⟨[[("1", "a")]]⟩ ⟨[("x", 0)]⟩ "x" "1").1
        (removeNotionPageId ⟨[[("1", "a")]]⟩ ⟨[("x", 0)]⟩ "x" "1").2
        "x" "1" = none := by
  constructor
  · exact (mapping_shallow_copy ⟨[[("1", "a")]]⟩ ⟨[("x", 0)]⟩ "x" "2" "b").1
      (by decide)
  · exact (mapping_shallow_copy ⟨[[("1", "a")]]⟩ ⟨[("x", 0)]⟩ "x" "1" "").2.2.2.1
      (by decide)

end TaskMaster
